import Mathlib

/-!
Verification of the hybrid retrieval engine
(`services/intelligence/rag/hybrid_search.py`).

Python strings are embedded as `List Char` (`Str`), Python floats as `ℚ`,
Python dicts as insertion-ordered association lists.  The two external
collaborators — the ChromaDB vector store and the `rank_bm25` scoring
function — are parameters of the engine model: the store is a function
from query and requested size to either an error or a list of
`(document, metadata, distance)` rows, and the BM25 index is a function
from query tokens to one score per corpus document.
-/

namespace HybridRag

/-- Python `str` embedded as a list of characters. -/
abbrev Str := List Char

/-- Python `str.lower()` (ASCII case folding). -/
def lowerS (s : Str) : Str := s.map Char.toLower

/-- Python `str.strip()`: drop leading and trailing whitespace. -/
def stripWs (s : Str) : Str :=
  ((s.dropWhile Char.isWhitespace).reverse.dropWhile Char.isWhitespace).reverse

/-- Helper for `splitWs`: accumulate the current (reversed) token. -/
def splitWsAux : Str → Str → List Str
  | [], acc => if acc.isEmpty then [] else [acc.reverse]
  | c :: rest, acc =>
    if c.isWhitespace then
      if acc.isEmpty then splitWsAux rest [] else acc.reverse :: splitWsAux rest []
    else splitWsAux rest (c :: acc)

/-- Python `str.split()` with no argument: split on whitespace runs,
no empty tokens. -/
def splitWs (s : Str) : List Str := splitWsAux s []

/-- Python `' '.join(tokens)`. -/
def joinWs (ts : List Str) : Str := List.intercalate [' '] ts

/-- Helper for `replaceSub`, structurally recursive on a fuel bound so
that concrete instances reduce in the kernel. -/
def replaceSubAux (pat rep : Str) : Nat → Str → Str
  | 0, s => s
  | _ + 1, [] => []
  | fuel + 1, c :: rest =>
    if pat.isPrefixOf (c :: rest) && !pat.isEmpty then
      rep ++ replaceSubAux pat rep fuel ((c :: rest).drop pat.length)
    else
      c :: replaceSubAux pat rep fuel rest

/-- Python `s.replace(pat, rep)` for a non-empty pattern: leftmost,
non-overlapping substring replacement, never rescanning the replacement. -/
def replaceSub (pat rep s : Str) : Str := replaceSubAux pat rep s.length s

/-- Substring test (Python `needle in haystack`). -/
def isInfixL (p : Str) : Str → Bool
  | [] => p.isEmpty
  | c :: rest => p.isPrefixOf (c :: rest) || isInfixL p rest

/-- First-match lookup in an association list (Python dict read). -/
def aget {α β : Type} [DecidableEq α] (k : α) : List (α × β) → Option β
  | [] => none
  | p :: rest => if p.1 = k then some p.2 else aget k rest

/-- Python dict assignment `d[k] = v`: replace in place if the key is
present, append at the end otherwise (insertion order preserved). -/
def aset {α β : Type} [DecidableEq α] (k : α) (v : β) : List (α × β) → List (α × β)
  | [] => [(k, v)]
  | p :: rest => if p.1 = k then (k, v) :: rest else p :: aset k v rest

/-- Modify the value stored under a key, in place. -/
def amod {α β : Type} [DecidableEq α] (k : α) (f : β → β) : List (α × β) → List (α × β)
  | [] => []
  | p :: rest => if p.1 = k then (p.1, f p.2) :: rest else p :: amod k f rest

/-! ### QueryEnhancer -/

/-- `QueryEnhancer.tech_synonyms`, in dict insertion order. -/
def tech_synonyms : List (Str × List Str) := [
  ( "mdm".data, [ "mobile device management".data, "device management".data]),
  ( "android".data, [ "android device".data, "mobile device".data]),
  ( "windows".data, [ "windows device".data, "pc".data, "desktop".data]),
  ( "suremdm".data, [ "42gears mdm".data, "device management platform".data]),
  ( "kiosk".data, [ "kiosk mode".data, "single app mode".data, "locked mode".data]),
  ( "app".data, [ "application".data, "software".data, "program".data]),
  ( "install".data, [ "installation".data, "deployment".data, "setup".data]),
  ( "configuration".data, [ "config".data, "settings".data, "setup".data]),
  ( "policy".data, [ "policies".data, "rules".data, "restrictions".data]),
  ( "security".data, [ "protection".data, "safety".data, "secure".data])]

/-- `QueryEnhancer.common_misspellings`, in dict insertion order. -/
def common_misspellings : List (Str × Str) := [
  ( "andriod".data, "android".data),
  ( "winodws".data, "windows".data),
  ( "configuratin".data, "configuration".data),
  ( "instalation".data, "installation".data),
  ( "managment".data, "management".data)]

/-- `QueryEnhancer.enhance_query`: lower-case and strip, fix the
misspelling table by sequential substring replacement, then walk the
tokens appending each token's synonyms right after it, and re-join
with single spaces. -/
def enhance_query (query : Str) : Str :=
  let enhanced := stripWs (lowerS query)
  let enhanced := common_misspellings.foldl (fun s p => replaceSub p.1 p.2 s) enhanced
  let words := splitWs enhanced
  let enhanced_words :=
    words.foldl (fun acc word => acc ++ word :: ((aget word tech_synonyms).getD [])) []
  joinWs enhanced_words

/-- The misspelling pass of `enhance_query`, as its own function. -/
def correctSpelling (s : Str) : Str :=
  common_misspellings.foldl (fun t p => replaceSub p.1 p.2 t) s

/-! ### Metadata values -/

/-- A metadata value: the store's metadata carries strings, and the
engine itself writes the integer `doc_index`. -/
inductive MVal : Type
  | str : Str → MVal
  | num : Nat → MVal
deriving DecidableEq

/-- Python truthiness of a metadata value. -/
def MVal.truthy : MVal → Bool
  | .str s => !s.isEmpty
  | .num n => n != 0

/-- A metadata dict, insertion ordered. -/
abbrev Metadata := List (Str × MVal)

def kId : Str := "id".data
def kTitle : Str := "title".data
def kUrl : Str := "url".data
def kSource : Str := "source".data
def kCategory : Str := "category".data
def kDocIndex : Str := "doc_index".data
def sUnknownCap : Str := "Unknown".data
def sUnknownLow : Str := "unknown".data
def mVector : Str := "vector".data
def mBm25 : Str := "bm25".data
def mHybrid : Str := "hybrid".data

/-! ### Stable descending sort

Python's `list.sort(key=…, reverse=True)` is a stable sort: elements
with equal keys keep their original relative order.  `ssortD` is a
structurally recursive stable descending insertion sort. -/

/-- Insert `x` into a descending-sorted list, after every element with a
strictly greater key and before the first element whose key is `≤`; the
inserted element comes first among equals, which is exactly stability
when building with `ssortD` (insertion proceeds right to left). -/
def insD {α : Type} (key : α → ℚ) (x : α) : List α → List α
  | [] => [x]
  | b :: l => if key x < key b then b :: insD key x l else x :: b :: l

/-- Stable sort, descending by `key`. -/
def ssortD {α : Type} (key : α → ℚ) : List α → List α
  | [] => []
  | x :: xs => insD key x (ssortD key xs)

/-! ### The engine -/

/-- One row of `HybridSearchEngine.vector_search`'s result list. -/
structure VRow where
  content : Str
  metadata : Metadata
  vector_score : ℚ
  rank : Nat
deriving DecidableEq

/-- One row of `HybridSearchEngine.bm25_search`'s result list. -/
structure BRow where
  content : Str
  metadata : Metadata
  bm25_score : ℚ
  rank : Nat
deriving DecidableEq

/-- The `SearchResult` dataclass.  Field values read out of metadata
dicts keep their dynamic type `MVal`. -/
structure SearchResult where
  id : MVal
  title : MVal
  content : Str
  url : MVal
  source : MVal
  category : MVal
  vector_score : ℚ
  bm25_score : ℚ
  hybrid_score : ℚ
  metadata : Metadata
deriving DecidableEq

/-- `HybridSearchEngine`: weights fixed at construction, the corpus the
store holds (parallel `docs` and `metas` lists), and the two external
collaborators: `vstore` answers a vector query with rows of
`(document, metadata, distance)` or fails, and `bmIndex` is the
`rank_bm25` scoring function, one score per corpus document. -/
structure Engine where
  vector_weight : ℚ
  bm25_weight : ℚ
  docs : List Str
  metas : List Metadata
  vstore : Str → Nat → Except Unit (List (Str × Metadata × ℚ))
  bmIndex : List Str → List ℚ

/-- `_initialize_bm25`: each document is lower-cased and tokenized on
whitespace; documents and metadatas are zipped. -/
def corpusOf (e : Engine) : List (List Str) :=
  (e.docs.zip e.metas).map (fun p => splitWs (lowerS p.1))

/-- `_initialize_bm25`: metadata of document `i` gets `doc_index = i`. -/
def metasIdx (e : Engine) : List Metadata :=
  (e.docs.zip e.metas).enum.map (fun p => aset kDocIndex (.num p.1) p.2.2)

/-- `HybridSearchEngine.vector_search`: on any store error return `[]`;
otherwise score each row as `1 / (1 + distance)` and rank from 1. -/
def vector_search (e : Engine) (query : Str) (n_results : Nat) : List VRow :=
  match e.vstore query n_results with
  | .error _ => []
  | .ok rows => rows.enum.map (fun p => ⟨p.2.1, p.2.2.1, 1 / (1 + p.2.2.2), p.1 + 1⟩)

/-- The `(doc_index, score)` pairs sorted by score descending (stable),
as built inside `bm25_search`. -/
def bm25Ranked (e : Engine) (query : Str) : List (Nat × ℚ) :=
  ssortD (fun p => p.2) (e.bmIndex (splitWs (lowerS query))).enum

/-- `HybridSearchEngine.bm25_search`: with an empty store the index was
never built and the result is `[]`; otherwise take the top `n_results`
scored documents, keep only strictly positive scores, reconstruct each
document from its stored tokens, and rank by position in the slice. -/
def bm25_search (e : Engine) (query : Str) (n_results : Nat) : List BRow :=
  if e.docs.isEmpty then []
  else
    ((bm25Ranked e query).take n_results).enum.filterMap (fun rp =>
      if 0 < rp.2.2 then
        some ⟨joinWs ((corpusOf e).getD rp.2.1 []), (metasIdx e).getD rp.2.1 [], rp.2.2, rp.1 + 1⟩
      else none)

/-! ### Hybrid fusion -/

/-- One value of the `combined_results` dict. -/
structure CEntry where
  content : Str
  metadata : Metadata
  vector_score : ℚ
  bm25_score : ℚ
  vector_rank : Option Nat
  bm25_rank : Option Nat
deriving DecidableEq

/-- `metadata.get('url', metadata.get('id', ''))`. -/
def docKey (m : Metadata) : MVal :=
  (aget kUrl m).getD ((aget kId m).getD (.str []))

def entryOfV (r : VRow) : CEntry :=
  ⟨r.content, r.metadata, r.vector_score, 0, some r.rank, none⟩

def entryOfB (r : BRow) : CEntry :=
  ⟨r.content, r.metadata, 0, r.bm25_score, none, some r.rank⟩

/-- Updating an existing combined entry with a BM25 row touches only the
BM25 score and rank. -/
def updEntry (en : CEntry) (r : BRow) : CEntry :=
  { en with bm25_score := r.bm25_score, bm25_rank := some r.rank }

/-- Processing one vector row into `combined_results`. -/
def addVec (acc : List (MVal × CEntry)) (r : VRow) : List (MVal × CEntry) :=
  let doc_id := docKey r.metadata
  if doc_id.truthy then aset doc_id (entryOfV r) acc else acc

/-- Processing one BM25 row into `combined_results`. -/
def addBm (acc : List (MVal × CEntry)) (r : BRow) : List (MVal × CEntry) :=
  let doc_id := docKey r.metadata
  if doc_id.truthy then
    if (aget doc_id acc).isSome then amod doc_id (fun en => updEntry en r) acc
    else acc ++ [(doc_id, entryOfB r)]
  else acc

/-- The `combined_results` dict: vector rows first, then BM25 rows. -/
def combineResults (v : List VRow) (b : List BRow) : List (MVal × CEntry) :=
  b.foldl addBm (v.foldl addVec [])

/-- `content[:500] + '...' if len(content) > 500 else content`. -/
def truncateS (s : Str) : Str :=
  if 500 < s.length then s.take 500 ++ "...".data else s

/-- Materializing one combined entry into a `SearchResult` (hybrid
mode): the hybrid score is the weighted sum of the branch scores. -/
def mkSR (e : Engine) (doc_id : MVal) (en : CEntry) : SearchResult :=
  { id := (aget kId en.metadata).getD doc_id
    title := (aget kTitle en.metadata).getD (.str sUnknownCap)
    content := truncateS en.content
    url := (aget kUrl en.metadata).getD (.str [])
    source := (aget kSource en.metadata).getD (.str sUnknownLow)
    category := (aget kCategory en.metadata).getD (.str sUnknownLow)
    vector_score := en.vector_score
    bm25_score := en.bm25_score
    hybrid_score := e.vector_weight * en.vector_score + e.bm25_weight * en.bm25_score
    metadata := en.metadata }

/-- `HybridSearchEngine.hybrid_search`: enhance the query, run both
branches at `n_results * 2`, fuse, sort by hybrid score descending and
truncate to `n_results`. -/
def hybrid_search (e : Engine) (query : Str) (n_results : Nat) : List SearchResult :=
  let enhanced_query := enhance_query query
  let vector_results := vector_search e enhanced_query (n_results * 2)
  let bm25_results := bm25_search e enhanced_query (n_results * 2)
  let combined := combineResults vector_results bm25_results
  let final_results := combined.map (fun p => mkSR e p.1 p.2)
  (ssortD (fun r => r.hybrid_score) final_results).take n_results

/-- Vector-only mode materialization: the vector score is reported as
the hybrid score. -/
def mkVecSR (r : VRow) : SearchResult :=
  { id := (aget kId r.metadata).getD (.str [])
    title := (aget kTitle r.metadata).getD (.str sUnknownCap)
    content := truncateS r.content
    url := (aget kUrl r.metadata).getD (.str [])
    source := (aget kSource r.metadata).getD (.str sUnknownLow)
    category := (aget kCategory r.metadata).getD (.str sUnknownLow)
    vector_score := r.vector_score
    bm25_score := 0
    hybrid_score := r.vector_score
    metadata := r.metadata }

/-- BM25-only mode materialization: the BM25 score is reported as the
hybrid score. -/
def mkBmSR (r : BRow) : SearchResult :=
  { id := (aget kId r.metadata).getD (.str [])
    title := (aget kTitle r.metadata).getD (.str sUnknownCap)
    content := truncateS r.content
    url := (aget kUrl r.metadata).getD (.str [])
    source := (aget kSource r.metadata).getD (.str sUnknownLow)
    category := (aget kCategory r.metadata).getD (.str sUnknownLow)
    vector_score := 0
    bm25_score := r.bm25_score
    hybrid_score := r.bm25_score
    metadata := r.metadata }

/-- `HybridSearchEngine.search`: dispatch on the mode string; anything
other than `vector` and `bm25` falls through to hybrid. -/
def search (e : Engine) (query : Str) (n_results : Nat) (search_type : Str) :
    List SearchResult :=
  if search_type = mVector then (vector_search e query n_results).map mkVecSR
  else if search_type = mBm25 then (bm25_search e query n_results).map mkBmSR
  else hybrid_search e query n_results

/-- The vector branch as invoked by `hybrid_search`. -/
def vbranch (e : Engine) (query : Str) (n_results : Nat) : List VRow :=
  vector_search e (enhance_query query) (n_results * 2)

/-- The lexical branch as invoked by `hybrid_search`. -/
def bbranch (e : Engine) (query : Str) (n_results : Nat) : List BRow :=
  bm25_search e (enhance_query query) (n_results * 2)

/-! ### Concrete scenarios used by witnesses and counterexamples -/

def qW : Str := "kiosk setup".data
def mFuzzy : Str := "fuzzy".data
def androidStr : Str := "android".data
def mdmPhrase : Str := "mobile device management".data
def andriodQuery : Str := "andriod mdm setup".data

/-- A store holding nothing, whose vector query returns one perfect
match (distance `0`) carrying only a non-empty `id`. -/
def E6 : Engine :=
  { vector_weight := 7/10, bm25_weight := 3/10, docs := [], metas := []
  , vstore := fun _ _ => .ok [( "doc x content".data, [(kId, .str ( "x".data))], 0)]
  , bmIndex := fun _ => [] }

/-- Like `E6`, but the returned row's metadata has an empty `url`
alongside the non-empty `id`. -/
def E2c : Engine :=
  { vector_weight := 7/10, bm25_weight := 3/10, docs := [], metas := []
  , vstore := fun _ _ => .ok [( "c".data, [(kUrl, .str []), (kId, .str ( "x".data))], 0)]
  , bmIndex := fun _ => [] }

/-- Two stored documents; the vector branch returns one document seen
only by it (`id` `v`) and one also found by BM25 (`id` `a`). -/
def E2w : Engine :=
  { vector_weight := 7/10, bm25_weight := 3/10
  , docs := [ "alpha beta".data, "gamma delta".data]
  , metas := [[(kId, .str ( "a".data))], [(kId, .str ( "b".data))]]
  , vstore := fun _ _ =>
      .ok [( "vec only doc".data, [(kId, .str ( "v".data))], 0),
           ( "both doc".data, [(kId, .str ( "a".data))], 1)]
  , bmIndex := fun _ => [3, 2] }

/-- A store whose vector side always fails and whose BM25 side scores
the single document positively. -/
def E7 : Engine :=
  { vector_weight := 7/10, bm25_weight := 3/10
  , docs := [ "kiosk mode guide".data]
  , metas := [[(kId, .str ( "k1".data))]]
  , vstore := fun _ _ => .error ()
  , bmIndex := fun _ => [2] }

/-- Three documents with a BM25 score tie between the first and the
third. -/
def E5 : Engine :=
  { vector_weight := 7/10, bm25_weight := 3/10
  , docs := [ "aa bb".data, "cc".data, "dd ee".data]
  , metas := [[], [], []]
  , vstore := fun _ _ => .error ()
  , bmIndex := fun _ => [2, 5, 2] }

/-- A single stored document longer than the display bound. -/
def doc10 : Str := List.replicate 501 'a'

def E10 : Engine :=
  { vector_weight := 7/10, bm25_weight := 3/10
  , docs := [doc10]
  , metas := [[(kId, .str ( "d1".data))]]
  , vstore := fun _ _ => .error ()
  , bmIndex := fun _ => [1] }

/-- C3's property: in every mode the branch scores are in range
(`vector_score ∈ [0,1]`, `bm25_score ≥ 0`); the weighted-sum law for
`hybrid_score` holds on the hybrid path, while the single-branch modes
report the branch score itself as the hybrid score with the opposite
branch fixed at 0. -/
def ScoreShapeProp (e : Engine) (q : Str) (n : Nat) (mode : Str) : Prop :=
  ∀ sr ∈ search e q n mode,
    (0 ≤ sr.vector_score ∧ sr.vector_score ≤ 1 ∧ 0 ≤ sr.bm25_score) ∧
    (mode ≠ mVector → mode ≠ mBm25 →
      sr.hybrid_score = e.vector_weight * sr.vector_score + e.bm25_weight * sr.bm25_score) ∧
    (mode = mVector → sr.bm25_score = 0 ∧ sr.hybrid_score = sr.vector_score) ∧
    (mode = mBm25 → sr.vector_score = 0 ∧ sr.hybrid_score = sr.bm25_score)

/-- C2's property: a document seen only by the vector branch keeps its
vector row's content/metadata with BM25 score exactly 0; one seen only
by BM25 keeps its BM25 row with vector score exactly 0; one seen by
both keeps the vector row's content and metadata, updated with the BM25
score; and the hybrid output is the combined map materialized, sorted
by hybrid score descending and truncated to `n`. -/
def FusionProp (e : Engine) (q : Str) (n : Nat) : Prop :=
  (∀ r ∈ vbranch e q n, (docKey r.metadata).truthy = true →
    (∀ r' ∈ bbranch e q n, docKey r'.metadata ≠ docKey r.metadata) →
    aget (docKey r.metadata) (combineResults (vbranch e q n) (bbranch e q n)) =
      some (entryOfV r)) ∧
  (∀ r ∈ bbranch e q n, (docKey r.metadata).truthy = true →
    (∀ r' ∈ vbranch e q n, docKey r'.metadata ≠ docKey r.metadata) →
    aget (docKey r.metadata) (combineResults (vbranch e q n) (bbranch e q n)) =
      some (entryOfB r)) ∧
  (∀ rv ∈ vbranch e q n, ∀ rb ∈ bbranch e q n, (docKey rv.metadata).truthy = true →
    docKey rb.metadata = docKey rv.metadata →
    aget (docKey rv.metadata) (combineResults (vbranch e q n) (bbranch e q n)) =
      some (updEntry (entryOfV rv) rb)) ∧
  hybrid_search e q n =
    (ssortD (fun r => r.hybrid_score)
      ((combineResults (vbranch e q n) (bbranch e q n)).map
        (fun p => mkSR e p.1 p.2))).take n

/-- C10's property: every BM25 row's content is the whitespace-join of
the stored (lower-cased, whitespace-split) tokens of the corresponding
corpus document; materialized results (BM25 mode, and hybrid entries
whose key no vector row produced) carry that reconstruction truncated
for display by `truncateS`. -/
def LexicalContentProp (e : Engine) (q : Str) (n : Nat) : Prop :=
  (∀ r ∈ bm25_search e q n, ∃ (i : Nat) (p : Str × Metadata),
    (e.docs.zip e.metas)[i]? = some p ∧
    r.content = joinWs (splitWs (lowerS p.1)) ∧
    r.metadata = aset kDocIndex (.num i) p.2) ∧
  (∀ sr ∈ search e q n mBm25, ∃ r ∈ bm25_search e q n,
    sr = mkBmSR r ∧ sr.content = truncateS r.content) ∧
  (∀ p ∈ combineResults (vbranch e q n) (bbranch e q n),
    (∀ rv ∈ vbranch e q n,
      ¬((docKey rv.metadata).truthy = true ∧ docKey rv.metadata = p.1)) →
    ∃ br ∈ bbranch e q n, p.2.content = br.content ∧ p.2.metadata = br.metadata) ∧
  (∀ sr ∈ hybrid_search e q n, ∃ p ∈ combineResults (vbranch e q n) (bbranch e q n),
    sr = mkSR e p.1 p.2 ∧ sr.content = truncateS p.2.content)

/-! ### Association list lemmas -/

section Assoc

variable {α β : Type} [DecidableEq α]

theorem aget_aset_self (k : α) (v : β) : ∀ l, aget k (aset k v l) = some v
  | [] => by simp [aset, aget]
  | p :: rest => by
    by_cases h : p.1 = k
    · simp [aset, aget, h]
    · simp [aset, aget, h, aget_aset_self k v rest]

theorem aget_aset_ne {k k' : α} (h : k ≠ k') (v : β) :
    ∀ l, aget k' (aset k v l) = aget k' l
  | [] => by simp [aset, aget, h]
  | p :: rest => by
    by_cases hp : p.1 = k
    · subst hp
      simp [aset, aget, h]
    · simp [aset, aget, hp, aget_aset_ne h v rest]

theorem aget_amod_self (k : α) (f : β → β) :
    ∀ l, aget k (amod k f l) = (aget k l).map f
  | [] => by simp [amod, aget]
  | p :: rest => by
    by_cases hp : p.1 = k
    · simp [amod, aget, hp]
    · simp [amod, aget, hp, aget_amod_self k f rest]

theorem aget_amod_ne {k k' : α} (h : k ≠ k') (f : β → β) :
    ∀ l, aget k' (amod k f l) = aget k' l
  | [] => by simp [amod, aget]
  | p :: rest => by
    by_cases hp : p.1 = k
    · subst hp
      simp [amod, aget, h]
    · simp [amod, aget, hp, aget_amod_ne h f rest]

theorem aget_append_of_none {k : α} {l₁ : List (α × β)} (l₂ : List (α × β))
    (h : aget k l₁ = none) : aget k (l₁ ++ l₂) = aget k l₂ := by
  induction l₁ with
  | nil => simp
  | cons p rest ih =>
    by_cases hp : p.1 = k
    · simp [aget, hp] at h
    · simp only [aget, hp, if_false, List.cons_append] at h ⊢
      exact ih h

theorem aget_append_of_some {k : α} {v : β} {l₁ : List (α × β)} (l₂ : List (α × β))
    (h : aget k l₁ = some v) : aget k (l₁ ++ l₂) = some v := by
  induction l₁ with
  | nil => simp [aget] at h
  | cons p rest ih =>
    by_cases hp : p.1 = k
    · simp only [aget, hp, if_true] at h ⊢
      exact h
    · simp only [aget, hp, if_false, List.cons_append] at h ⊢
      exact ih h

theorem mem_aset {k : α} {v : β} : ∀ {l p}, p ∈ aset k v l → p = (k, v) ∨ p ∈ l
  | [], p, h => by
    simp [aset] at h
    exact Or.inl h
  | q :: rest, p, h => by
    by_cases hq : q.1 = k
    · simp only [aset, hq, if_true, List.mem_cons] at h
      rcases h with h | h
      · exact Or.inl h
      · exact Or.inr (List.mem_cons_of_mem q h)
    · simp only [aset, hq, if_false, List.mem_cons] at h
      rcases h with h | h
      · exact Or.inr (h ▸ List.mem_cons_self q rest)
      · rcases mem_aset h with h | h
        · exact Or.inl h
        · exact Or.inr (List.mem_cons_of_mem q h)

theorem mem_amod {k : α} {f : β → β} :
    ∀ {l p}, p ∈ amod k f l → p ∈ l ∨ ∃ q, q ∈ l ∧ p = (q.1, f q.2)
  | [], p, h => by simp [amod] at h
  | q :: rest, p, h => by
    by_cases hq : q.1 = k
    · simp only [amod, hq, if_true, List.mem_cons] at h
      rcases h with h | h
      · exact Or.inr ⟨q, List.mem_cons_self q rest, by rw [hq]; exact h⟩
      · exact Or.inl (List.mem_cons_of_mem q h)
    · simp only [amod, hq, if_false, List.mem_cons] at h
      rcases h with h | h
      · exact Or.inl (h ▸ List.mem_cons_self q rest)
      · rcases mem_amod h with h | ⟨r, hr, hp⟩
        · exact Or.inl (List.mem_cons_of_mem q h)
        · exact Or.inr ⟨r, List.mem_cons_of_mem q hr, hp⟩

end Assoc

/-! ### Stable sort lemmas -/

section SortD

variable {α : Type} (key : α → ℚ)

theorem mem_insD {x y : α} : ∀ l, y ∈ insD key x l ↔ y = x ∨ y ∈ l
  | [] => by simp [insD]
  | b :: l => by
    by_cases h : key x < key b
    · rw [insD, if_pos h, List.mem_cons, mem_insD l, List.mem_cons]
      tauto
    · rw [insD, if_neg h]
      simp only [List.mem_cons]

theorem mem_ssortD {y : α} : ∀ l, y ∈ ssortD key l ↔ y ∈ l
  | [] => by simp [ssortD]
  | x :: l => by simp [ssortD, mem_insD, mem_ssortD l]

theorem perm_insD (x : α) : ∀ l, (insD key x l).Perm (x :: l)
  | [] => .refl _
  | b :: l => by
    by_cases h : key x < key b
    · rw [insD, if_pos h]
      exact ((perm_insD x l).cons b).trans (List.Perm.swap x b l)
    · rw [insD, if_neg h]

theorem perm_ssortD : ∀ l, (ssortD key l).Perm l
  | [] => .refl _
  | x :: l => by
    rw [ssortD]
    exact (perm_insD key x _).trans ((perm_ssortD l).cons x)

theorem insD_decomp (x : α) : ∀ l, ∃ pre post, l = pre ++ post ∧
    insD key x l = pre ++ x :: post ∧ ∀ y ∈ pre, key x < key y
  | [] => ⟨[], [], rfl, rfl, by simp⟩
  | b :: l => by
    by_cases h : key x < key b
    · obtain ⟨pre, post, h1, h2, h3⟩ := insD_decomp x l
      refine ⟨b :: pre, post, by simp [h1], by simp [insD, h, h2], ?_⟩
      intro y hy
      rcases List.mem_cons.mp hy with rfl | hy
      · exact h
      · exact h3 y hy
    · exact ⟨[], b :: l, rfl, by simp [insD, h], by simp⟩

theorem sorted_insD (x : α) : ∀ {l}, l.Pairwise (fun a b => key b ≤ key a) →
    (insD key x l).Pairwise (fun a b => key b ≤ key a)
  | [], _ => by simp [insD]
  | b :: l, h => by
    rw [List.pairwise_cons] at h
    by_cases hx : key x < key b
    · rw [insD, if_pos hx]
      refine List.pairwise_cons.mpr ⟨?_, sorted_insD x h.2⟩
      intro y hy
      rcases (mem_insD key l).mp hy with rfl | hy
      · exact le_of_lt hx
      · exact h.1 y hy
    · rw [insD, if_neg hx]
      refine List.pairwise_cons.mpr ⟨?_, List.pairwise_cons.mpr ⟨h.1, h.2⟩⟩
      intro y hy
      rcases List.mem_cons.mp hy with rfl | hy
      · exact le_of_not_lt hx
      · exact le_trans (h.1 y hy) (le_of_not_lt hx)

theorem sorted_ssortD : ∀ l, (ssortD key l).Pairwise (fun a b => key b ≤ key a)
  | [] => by simp [ssortD]
  | x :: l => sorted_insD key x (sorted_ssortD l)

theorem sublist_insD (x : α) : ∀ l, List.Sublist l (insD key x l)
  | [] => List.nil_sublist [x]
  | b :: l => by
    by_cases h : key x < key b
    · rw [insD, if_pos h]
      exact List.Sublist.cons₂ b (sublist_insD x l)
    · rw [insD, if_neg h]
      exact List.sublist_cons_self x (b :: l)

theorem pair_sublist_insD {x b : α} {l : List α} (hb : b ∈ l) (hkey : key b ≤ key x) :
    List.Sublist [x, b] (insD key x l) := by
  obtain ⟨pre, post, h1, h2, h3⟩ := insD_decomp key x l
  have hbpost : b ∈ post := by
    rcases List.mem_append.mp (h1 ▸ hb) with hp | hp
    · exact absurd (h3 b hp) (not_lt.mpr hkey)
    · exact hp
  rw [h2]
  exact List.sublist_append_of_sublist_right
    (List.Sublist.cons₂ x (List.singleton_sublist.mpr hbpost))

theorem pair_sublist_ssortD {a b : α} (hkey : key b ≤ key a) :
    ∀ {l : List α}, List.Sublist [a, b] l → List.Sublist [a, b] (ssortD key l)
  | [], h => by simp at h
  | x :: xs, h => by
    rw [ssortD]
    cases h with
    | cons _ h' =>
      exact (pair_sublist_ssortD hkey h').trans (sublist_insD key x (ssortD key xs))
    | cons₂ _ h' =>
      exact pair_sublist_insD key
        ((mem_ssortD key xs).mpr (List.singleton_sublist.mp h')) hkey

theorem sublist_pair_pos {x y : α} : ∀ {l : List α}, List.Sublist [x, y] l →
    ∃ p q : Nat, p < q ∧ l[p]? = some x ∧ l[q]? = some y
  | [], h => by simp at h
  | c :: l, h => by
    cases h with
    | cons _ h' =>
      obtain ⟨p, q, hpq, hx, hy⟩ := sublist_pair_pos h'
      exact ⟨p + 1, q + 1, by omega, by simpa, by simpa⟩
    | cons₂ _ h' =>
      obtain ⟨q, hq⟩ := List.mem_iff_getElem?.mp (List.singleton_sublist.mp h')
      exact ⟨0, q + 1, by omega, List.getElem?_cons_zero, by simpa⟩

theorem pos_pair_sublist {x y : α} : ∀ (l : List α) (p q : Nat), p < q →
    l[p]? = some x → l[q]? = some y → List.Sublist [x, y] l
  | [], p, q, _, hx, _ => by simp at hx
  | c :: l, 0, q, h, hx, hy => by
    obtain ⟨q', rfl⟩ : ∃ q', q = q' + 1 := ⟨q - 1, by omega⟩
    rw [List.getElem?_cons_succ] at hy
    rw [List.getElem?_cons_zero] at hx
    cases hx
    exact List.Sublist.cons₂ _ (List.singleton_sublist.mpr (List.getElem?_mem hy))
  | c :: l, p + 1, q, h, hx, hy => by
    obtain ⟨q', rfl⟩ : ∃ q', q = q' + 1 := ⟨q - 1, by omega⟩
    rw [List.getElem?_cons_succ] at hx hy
    exact (pos_pair_sublist l p q' (by omega) hx hy).cons c

theorem nodup_getElem?_inj {l : List α} (h : l.Nodup) {p q : Nat} {x : α}
    (hp : l[p]? = some x) (hq : l[q]? = some x) : p = q := by
  obtain ⟨hp', hpe⟩ := List.getElem?_eq_some.mp hp
  obtain ⟨hq', hqe⟩ := List.getElem?_eq_some.mp hq
  exact (h.getElem_inj_iff).mp (hpe.trans hqe.symm)

theorem pairwise_enum_snd {R : α → α → Prop} {l : List α} (h : l.Pairwise R) :
    l.enum.Pairwise (fun a b => R a.2 b.2) := by
  rw [List.pairwise_iff_getElem] at h ⊢
  intro i j hi hj hij
  simp only [List.getElem_enum]
  exact h i j (by simpa using hi) (by simpa using hj) hij

theorem pairwise_enum_fst {l : List α} : l.enum.Pairwise (fun a b => a.1 < b.1) := by
  rw [List.pairwise_iff_getElem]
  intro i j hi hj hij
  simpa [List.getElem_enum] using hij

end SortD

/-! ### Query enhancement lemmas -/

theorem foldl_append_eq_flatMap {α : Type} (f : α → List α) :
    ∀ (ws : List α) (acc : List α),
      ws.foldl (fun a w => a ++ (w :: f w)) acc = acc ++ ws.flatMap (fun w => w :: f w)
  | [], acc => by simp
  | w :: ws, acc => by
    rw [List.foldl_cons, foldl_append_eq_flatMap f ws, List.flatMap_cons]
    simp

theorem sublist_flatMap_expand {α : Type} (f : α → List α) :
    ∀ ws : List α, List.Sublist ws (ws.flatMap fun w => w :: f w)
  | [] => by simp
  | w :: ws => by
    rw [List.flatMap_cons]
    exact List.Sublist.cons₂ w
      (List.sublist_append_of_sublist_right (sublist_flatMap_expand f ws))

set_option maxRecDepth 40000 in
/-- C8: `enhance_query` lower-cases (and strips) the query, rewrites the
misspelling table by exact substring replacement, then performs the
token walk, which is exactly a flat-map appending each trigger's
synonyms immediately after it — so the corrected tokens survive in
order as a subsequence.  Concretely, "andriod mdm setup" is corrected
to contain "android" and gains "mobile device management", and the
empty query stays empty. -/
theorem enhance_query_expansion :
    (∀ q : Str, enhance_query q =
      joinWs ((splitWs (correctSpelling (stripWs (lowerS q)))).flatMap
        (fun w => w :: (aget w tech_synonyms).getD []))) ∧
    (∀ q : Str, List.Sublist (splitWs (correctSpelling (stripWs (lowerS q))))
      ((splitWs (correctSpelling (stripWs (lowerS q)))).flatMap
        (fun w => w :: (aget w tech_synonyms).getD []))) ∧
    isInfixL androidStr (enhance_query andriodQuery) = true ∧
    isInfixL mdmPhrase (enhance_query andriodQuery) = true ∧
    enhance_query [] = [] := by
  refine ⟨?_, fun q => sublist_flatMap_expand _ _, by decide, by decide, by decide⟩
  intro q
  simp only [enhance_query, correctSpelling]
  rw [foldl_append_eq_flatMap]
  simp

/-! ### Fusion fold lemmas -/

theorem addVec_pinv (P : MVal × CEntry → Prop) :
    ∀ (v : List VRow) (acc : List (MVal × CEntry)),
      (∀ p ∈ acc, P p) →
      (∀ r ∈ v, (docKey r.metadata).truthy = true → P (docKey r.metadata, entryOfV r)) →
      ∀ p ∈ v.foldl addVec acc, P p
  | [], _, hacc, _ => by simpa using hacc
  | r :: v, acc, hacc, hrows => by
    rw [List.foldl_cons]
    refine addVec_pinv P v (addVec acc r) ?_
      (fun r' hr' => hrows r' (List.mem_cons_of_mem r hr'))
    intro p hp
    simp only [addVec] at hp
    by_cases ht : (docKey r.metadata).truthy = true
    · rw [if_pos ht] at hp
      rcases mem_aset hp with rfl | hp
      · exact hrows r (List.mem_cons_self r v) ht
      · exact hacc p hp
    · rw [if_neg ht] at hp
      exact hacc p hp

theorem addBm_pinv (P : MVal × CEntry → Prop) :
    ∀ (b : List BRow) (acc : List (MVal × CEntry)),
      (∀ p ∈ acc, P p) →
      (∀ r ∈ b, (docKey r.metadata).truthy = true → P (docKey r.metadata, entryOfB r)) →
      (∀ (k : MVal) (en : CEntry) (r : BRow), r ∈ b → P (k, en) → P (k, updEntry en r)) →
      ∀ p ∈ b.foldl addBm acc, P p
  | [], _, hacc, _, _ => by simpa using hacc
  | r :: b, acc, hacc, hrows, hupd => by
    rw [List.foldl_cons]
    refine addBm_pinv P b (addBm acc r) ?_
      (fun r' hr' => hrows r' (List.mem_cons_of_mem r hr'))
      (fun k en r' hr' => hupd k en r' (List.mem_cons_of_mem r hr'))
    intro p hp
    simp only [addBm] at hp
    by_cases ht : (docKey r.metadata).truthy = true
    · rw [if_pos ht] at hp
      by_cases hs : (aget (docKey r.metadata) acc).isSome = true
      · rw [if_pos hs] at hp
        rcases mem_amod hp with hp | ⟨q, hq, rfl⟩
        · exact hacc p hp
        · exact hupd q.1 q.2 r (List.mem_cons_self r b) (hacc q hq)
      · rw [if_neg hs] at hp
        rcases List.mem_append.mp hp with hp | hp
        · exact hacc p hp
        · rw [List.mem_singleton] at hp
          rw [hp]
          exact hrows r (List.mem_cons_self r b) ht
    · rw [if_neg ht] at hp
      exact hacc p hp

theorem aget_addVec_ne {acc : List (MVal × CEntry)} {r : VRow} {k : MVal}
    (h : (docKey r.metadata).truthy = true → docKey r.metadata ≠ k) :
    aget k (addVec acc r) = aget k acc := by
  simp only [addVec]
  by_cases ht : (docKey r.metadata).truthy = true
  · rw [if_pos ht]
    exact aget_aset_ne (h ht) _ acc
  · rw [if_neg ht]

theorem aget_foldl_addVec_nokey :
    ∀ (v : List VRow) (acc : List (MVal × CEntry)) (k : MVal),
      (∀ r ∈ v, (docKey r.metadata).truthy = true → docKey r.metadata ≠ k) →
      aget k (v.foldl addVec acc) = aget k acc
  | [], _, _, _ => rfl
  | r :: v, acc, k, h => by
    rw [List.foldl_cons,
      aget_foldl_addVec_nokey v _ k (fun r' hr' => h r' (List.mem_cons_of_mem r hr'))]
    exact aget_addVec_ne (h r (List.mem_cons_self r v))

theorem aget_addBm_ne {acc : List (MVal × CEntry)} {r : BRow} {k : MVal}
    (h : (docKey r.metadata).truthy = true → docKey r.metadata ≠ k) :
    aget k (addBm acc r) = aget k acc := by
  simp only [addBm]
  by_cases ht : (docKey r.metadata).truthy = true
  · rw [if_pos ht]
    by_cases hs : (aget (docKey r.metadata) acc).isSome = true
    · rw [if_pos hs]
      exact aget_amod_ne (h ht) _ acc
    · rw [if_neg hs]
      cases hacc : aget k acc with
      | some v => exact aget_append_of_some _ hacc
      | none =>
        rw [aget_append_of_none _ hacc]
        simp [aget, h ht]
  · rw [if_neg ht]

theorem aget_foldl_addBm_nokey :
    ∀ (b : List BRow) (acc : List (MVal × CEntry)) (k : MVal),
      (∀ r ∈ b, (docKey r.metadata).truthy = true → docKey r.metadata ≠ k) →
      aget k (b.foldl addBm acc) = aget k acc
  | [], _, _, _ => rfl
  | r :: b, acc, k, h => by
    rw [List.foldl_cons,
      aget_foldl_addBm_nokey b _ k (fun r' hr' => h r' (List.mem_cons_of_mem r hr'))]
    exact aget_addBm_ne (h r (List.mem_cons_self r b))

theorem aget_foldl_addVec_unique (v₁ : List VRow) (r : VRow) (v₂ : List VRow)
    (acc : List (MVal × CEntry))
    (ht : (docKey r.metadata).truthy = true)
    (hv₂ : ∀ r' ∈ v₂, (docKey r'.metadata).truthy = true →
      docKey r'.metadata ≠ docKey r.metadata) :
    aget (docKey r.metadata) ((v₁ ++ r :: v₂).foldl addVec acc) = some (entryOfV r) := by
  rw [List.foldl_append, List.foldl_cons, aget_foldl_addVec_nokey v₂ _ _ hv₂]
  simp only [addVec]
  rw [if_pos ht]
  exact aget_aset_self _ _ _

theorem aget_foldl_addBm_new (b₁ : List BRow) (r : BRow) (b₂ : List BRow)
    (acc : List (MVal × CEntry))
    (ht : (docKey r.metadata).truthy = true)
    (hb₂ : ∀ r' ∈ b₂, (docKey r'.metadata).truthy = true →
      docKey r'.metadata ≠ docKey r.metadata)
    (hnone : aget (docKey r.metadata) (b₁.foldl addBm acc) = none) :
    aget (docKey r.metadata) ((b₁ ++ r :: b₂).foldl addBm acc) = some (entryOfB r) := by
  rw [List.foldl_append, List.foldl_cons, aget_foldl_addBm_nokey b₂ _ _ hb₂]
  simp only [addBm]
  rw [if_pos ht, hnone]
  simp only [Option.isSome_none, Bool.false_eq_true, if_false]
  rw [aget_append_of_none _ hnone]
  simp [aget]

theorem aget_foldl_addBm_upd (b₁ : List BRow) (r : BRow) (b₂ : List BRow)
    (acc : List (MVal × CEntry)) (en : CEntry)
    (ht : (docKey r.metadata).truthy = true)
    (hb₂ : ∀ r' ∈ b₂, (docKey r'.metadata).truthy = true →
      docKey r'.metadata ≠ docKey r.metadata)
    (hsome : aget (docKey r.metadata) (b₁.foldl addBm acc) = some en) :
    aget (docKey r.metadata) ((b₁ ++ r :: b₂).foldl addBm acc) = some (updEntry en r) := by
  rw [List.foldl_append, List.foldl_cons, aget_foldl_addBm_nokey b₂ _ _ hb₂]
  simp only [addBm]
  rw [if_pos ht, hsome]
  simp only [Option.isSome_some, if_true]
  rw [aget_amod_self, hsome]
  rfl

/-! ### Claim theorems -/

/-- C1: the code performs no caller-misuse validation: a mode string
other than `vector` and `bm25` silently falls through to hybrid search,
and `k = 0` silently yields the empty list — no exception path exists
in `search` (its embedding is a total function into result lists). -/
theorem search_no_validation (e : Engine) (q : Str) (mode : Str) (n : Nat) :
    (mode ≠ mVector → mode ≠ mBm25 → search e q n mode = hybrid_search e q n) ∧
    search e q 0 mHybrid = [] := by
  constructor
  · intro h1 h2
    rw [search, if_neg h1, if_neg h2]
  · rw [search, if_neg (by decide : ¬ mHybrid = mVector),
      if_neg (by decide : ¬ mHybrid = mBm25)]
    simp [hybrid_search]

/-- Witness for C1 at a concrete engine: the unrecognized mode `fuzzy`
behaves exactly like hybrid, and `k = 0` returns `[]`. -/
theorem search_no_validation_witness :
    search E6 qW 3 mFuzzy = hybrid_search E6 qW 3 ∧ search E6 qW 0 mHybrid = [] :=
  ⟨(search_no_validation E6 qW mFuzzy 3).1 (by decide) (by decide),
   (search_no_validation E6 qW mHybrid 0).2⟩

/-- C9: a metadata dict carrying `url` mapped to the empty string gets
the empty (falsy) merge key regardless of its `id`, so both fusion
passes drop the row; the fallback to `id` happens only when the `url`
key is entirely absent. -/
theorem url_empty_key_drop :
    (∀ m : Metadata, aget kUrl m = some (.str []) →
      docKey m = .str [] ∧ (docKey m).truthy = false) ∧
    (∀ (acc : List (MVal × CEntry)) (r : VRow), aget kUrl r.metadata = some (.str []) →
      addVec acc r = acc) ∧
    (∀ (acc : List (MVal × CEntry)) (r : BRow), aget kUrl r.metadata = some (.str []) →
      addBm acc r = acc) ∧
    (∀ (m : Metadata) (v : MVal), aget kUrl m = none → aget kId m = some v →
      docKey m = v) := by
  have hk : ∀ m : Metadata, aget kUrl m = some (.str []) → docKey m = .str [] := by
    intro m h
    rw [docKey, h]
    rfl
  refine ⟨fun m h => ⟨hk m h, by rw [hk m h]; rfl⟩, ?_, ?_, ?_⟩
  · intro acc r h
    simp [addVec, hk r.metadata h, MVal.truthy]
  · intro acc r h
    simp [addBm, hk r.metadata h, MVal.truthy]
  · intro m v h1 h2
    rw [docKey, h1, h2]
    rfl

/-- Witness for C9: a concrete metadata dict with empty `url` and
non-empty `id` keys to the empty string and is dropped by the vector
fusion pass, while without the `url` key the `id` is used. -/
theorem url_empty_key_drop_witness :
    docKey [(kUrl, .str []), (kId, .str ( "x".data))] = .str [] ∧
    addVec [] ⟨ "c".data, [(kUrl, .str []), (kId, .str ( "x".data))], 1, 1⟩ = [] ∧
    docKey [(kId, .str ( "x".data))] = .str ( "x".data) :=
  ⟨(url_empty_key_drop.1 _ (by decide)).1,
   url_empty_key_drop.2.1 [] _ (by decide),
   url_empty_key_drop.2.2.2 _ _ (by decide) (by decide)⟩

/-- C6: every vector-store row with distance `d` is scored exactly
`1 / (1 + d)`; and in the spec's concrete scenario — one perfect match
(distance 0, id `x`) from the vector branch, nothing from the lexical
branch — hybrid search returns that document with vector score 1,
BM25 score 0, and hybrid score `vector_weight * 1`. -/
theorem vector_similarity_scoring :
    (∀ (e : Engine) (q : Str) (n : Nat) (rows : List (Str × Metadata × ℚ)),
      e.vstore q n = .ok rows →
      (vector_search e q n).map (fun r => r.vector_score) =
        rows.map (fun t => 1 / (1 + t.2.2))) ∧
    ((hybrid_search E6 qW 5).map
        (fun r => (r.vector_score, r.bm25_score, r.hybrid_score)) =
      [(1, 0, E6.vector_weight * 1)]) := by
  constructor
  · intro e q n rows h
    simp only [vector_search, h, List.map_map]
    have hcomp : ((fun r : VRow => r.vector_score) ∘
        (fun p : Nat × (Str × Metadata × ℚ) =>
          (⟨p.2.1, p.2.2.1, 1 / (1 + p.2.2.2), p.1 + 1⟩ : VRow))) =
        ((fun t : Str × Metadata × ℚ => 1 / (1 + t.2.2)) ∘ Prod.snd) := rfl
    rw [hcomp, ← List.map_map, List.enum_map_snd]
  · simp [hybrid_search, vector_search, bm25_search, E6, combineResults, addVec, addBm,
      docKey, aget, kUrl, kId, MVal.truthy, aset, mkSR, ssortD, insD, truncateS,
      entryOfV, List.enum]

/-- Witness for C6: the general scoring law applied to the concrete
store `E6`, whose single row has distance 0. -/
theorem vector_similarity_scoring_witness :
    (vector_search E6 qW 5).map (fun r => r.vector_score) =
      [( "doc x content".data, ([(kId, MVal.str ( "x".data))] : Metadata), (0 : ℚ))].map
        (fun t => 1 / (1 + t.2.2)) :=
  vector_similarity_scoring.1 E6 qW 5 _ rfl

/-- Every hybrid result is the materialization of some combined entry. -/
theorem mem_hybrid_search {e : Engine} {q : Str} {n : Nat} {r : SearchResult}
    (h : r ∈ hybrid_search e q n) :
    ∃ p ∈ combineResults (vbranch e q n) (bbranch e q n), r = mkSR e p.1 p.2 := by
  have h1 : r ∈ ssortD (fun r => r.hybrid_score)
      ((combineResults (vbranch e q n) (bbranch e q n)).map (fun p => mkSR e p.1 p.2)) :=
    (List.take_sublist n _).subset h
  rcases List.mem_map.mp ((mem_ssortD _ _).mp h1) with ⟨p, hp, hr⟩
  exact ⟨p, hp, hr.symm⟩

/-- C7: when the vector store fails for the (enhanced) query, hybrid
search raises nothing and every returned result has vector score
exactly 0, its content/metadata and BM25 score coming from the lexical
branch alone. -/
theorem graceful_degradation (e : Engine) (q : Str) (n : Nat)
    (herr : e.vstore (enhance_query q) (n * 2) = .error ()) :
    (∀ r ∈ hybrid_search e q n, r.vector_score = 0) ∧
    (∀ r ∈ hybrid_search e q n, ∃ br ∈ bbranch e q n,
      r.content = truncateS br.content ∧ r.metadata = br.metadata) ∧
    (∀ r ∈ hybrid_search e q n, ∃ br ∈ bbranch e q n, r.bm25_score = br.bm25_score) := by
  have hv : vbranch e q n = [] := by
    simp [vbranch, vector_search, herr]
  have hinv : ∀ p ∈ combineResults (vbranch e q n) (bbranch e q n),
      (fun p : MVal × CEntry => p.2.vector_score = 0 ∧
        (∃ br ∈ bbranch e q n, p.2.content = br.content ∧ p.2.metadata = br.metadata) ∧
        (∃ br ∈ bbranch e q n, p.2.bm25_score = br.bm25_score)) p := by
    rw [combineResults, hv]
    refine addBm_pinv _ (bbranch e q n) _ (by simp [addVec]) ?_ ?_
    · intro r hr _
      exact ⟨rfl, ⟨r, hr, rfl, rfl⟩, ⟨r, hr, rfl⟩⟩
    · rintro k en r hr ⟨h0, ⟨br, hbr, hc, hm⟩, -⟩
      exact ⟨h0, ⟨br, hbr, hc, hm⟩, ⟨r, hr, rfl⟩⟩
  refine ⟨?_, ?_, ?_⟩
  · intro r hr
    obtain ⟨p, hp, rfl⟩ := mem_hybrid_search hr
    exact (hinv p hp).1
  · intro r hr
    obtain ⟨p, hp, rfl⟩ := mem_hybrid_search hr
    obtain ⟨br, hbr, hc, hm⟩ := (hinv p hp).2.1
    exact ⟨br, hbr, by simp [mkSR, hc], by simp [mkSR, hm]⟩
  · intro r hr
    obtain ⟨p, hp, rfl⟩ := mem_hybrid_search hr
    obtain ⟨br, hbr, hs⟩ := (hinv p hp).2.2
    exact ⟨br, hbr, by simp [mkSR, hs]⟩

/-- Witness for C7 at the concrete always-failing store `E7`. -/
theorem graceful_degradation_witness :
    (∀ r ∈ hybrid_search E7 qW 2, r.vector_score = 0) ∧
    (∀ r ∈ hybrid_search E7 qW 2, ∃ br ∈ bbranch E7 qW 2,
      r.content = truncateS br.content ∧ r.metadata = br.metadata) ∧
    (∀ r ∈ hybrid_search E7 qW 2, ∃ br ∈ bbranch E7 qW 2, r.bm25_score = br.bm25_score) :=
  graceful_degradation E7 qW 2 rfl

/-- Every BM25 row carries a strictly positive score. -/
theorem bm25_search_pos (e : Engine) (q : Str) (n : Nat) :
    ∀ r ∈ bm25_search e q n, 0 < r.bm25_score := by
  intro r hr
  by_cases hd : e.docs.isEmpty
  · simp [bm25_search, hd] at hr
  · rw [bm25_search, if_neg hd] at hr
    obtain ⟨a, _, hfa⟩ := List.mem_filterMap.mp hr
    by_cases hpos : 0 < a.2.2
    · rw [if_pos hpos] at hfa
      cases hfa
      exact hpos
    · rw [if_neg hpos] at hfa
      cases hfa

/-- C4: BM25 search returns at most `n` results, ordered by BM25 score
descending, and every returned result has strictly positive score —
non-positive documents are excluded even when fewer than `n` remain. -/
theorem bm25_topk (e : Engine) (q : Str) (n : Nat) :
    (bm25_search e q n).length ≤ n ∧
    ((bm25_search e q n).map (fun r => r.bm25_score)).Pairwise (fun a b => b ≤ a) ∧
    (∀ r ∈ bm25_search e q n, 0 < r.bm25_score) := by
  by_cases hd : e.docs.isEmpty
  · simp [bm25_search, hd]
  · have hb : bm25_search e q n = ((bm25Ranked e q).take n).enum.filterMap (fun rp =>
        if 0 < rp.2.2 then
          some ⟨joinWs ((corpusOf e).getD rp.2.1 []), (metasIdx e).getD rp.2.1 [],
            rp.2.2, rp.1 + 1⟩
        else none) := by
      rw [bm25_search, if_neg hd]
    rw [hb]
    refine ⟨?_, ?_, ?_⟩
    · exact le_trans (List.length_filterMap_le _ _)
        (by simp [List.enum_length])
    · rw [List.pairwise_map, List.pairwise_filterMap]
      have hsorted : ((bm25Ranked e q).take n).Pairwise (fun a b => b.2 ≤ a.2) :=
        (sorted_ssortD (fun p : Nat × ℚ => p.2) _).sublist (List.take_sublist _ _)
      refine (pairwise_enum_snd hsorted).imp ?_
      intro a b hab x hx y hy
      by_cases ha : 0 < a.2.2
      · rw [if_pos ha] at hx
        by_cases hbp : 0 < b.2.2
        · rw [if_pos hbp] at hy
          cases hx
          cases hy
          exact hab
        · rw [if_neg hbp] at hy
          cases hy
      · rw [if_neg ha] at hx
        cases hx
    · rw [← hb]
      exact bm25_search_pos e q n

/-- Vector scores are `1 / (1 + d)`, hence in `[0, 1]` whenever the
store reports only nonnegative distances. -/
theorem vector_search_score_bounds (e : Engine) (q : Str) (n : Nat)
    (hd : ∀ rows, e.vstore q n = .ok rows → ∀ t ∈ rows, 0 ≤ t.2.2) :
    ∀ r ∈ vector_search e q n, 0 ≤ r.vector_score ∧ r.vector_score ≤ 1 := by
  intro r hr
  cases hst : e.vstore q n with
  | error u => simp [vector_search, hst] at hr
  | ok rows =>
    simp only [vector_search, hst] at hr
    obtain ⟨p, hp, rfl⟩ := List.mem_map.mp hr
    have hmem : p.2 ∈ rows := List.getElem?_mem (List.mem_enum_iff_getElem?.mp hp)
    have h0 : 0 ≤ p.2.2.2 := hd rows hst p.2 hmem
    constructor
    · exact div_nonneg (by norm_num) (by linarith)
    · rw [div_le_one (by linarith)]
      linarith

/-- All combined entries have vector score in `[0, 1]` and nonnegative
BM25 score, given nonnegative distances from the store. -/
theorem combine_score_bounds (e : Engine) (q : Str) (n : Nat)
    (hd : ∀ (q' : Str) (n' : Nat) rows, e.vstore q' n' = .ok rows → ∀ t ∈ rows, 0 ≤ t.2.2) :
    ∀ p ∈ combineResults (vbranch e q n) (bbranch e q n),
      0 ≤ p.2.vector_score ∧ p.2.vector_score ≤ 1 ∧ 0 ≤ p.2.bm25_score := by
  have hv := vector_search_score_bounds e (enhance_query q) (n * 2)
    (fun rows h => hd _ _ rows h)
  have hbp := bm25_search_pos e (enhance_query q) (n * 2)
  rw [combineResults]
  refine addBm_pinv (fun p => 0 ≤ p.2.vector_score ∧ p.2.vector_score ≤ 1 ∧
      0 ≤ p.2.bm25_score) _ _ ?_ ?_ ?_
  · refine addVec_pinv _ _ _ (by simp) ?_
    intro r hr _
    exact ⟨(hv r hr).1, (hv r hr).2, le_refl 0⟩
  · intro r hr _
    exact ⟨le_refl 0, by norm_num [entryOfB], le_of_lt (hbp r hr)⟩
  · rintro k en r hr ⟨h1, h2, -⟩
    exact ⟨h1, h2, le_of_lt (hbp r hr)⟩

/-- C3 (amended): branch scores are in range in every mode; the
weighted-sum law for the hybrid score holds on the hybrid path, while
the single-branch modes report the branch score itself as the hybrid
score (so the weighted-sum law does not hold there in general). -/
theorem score_shape (e : Engine) (q : Str) (n : Nat) (mode : Str)
    (hd : ∀ (q' : Str) (n' : Nat) rows, e.vstore q' n' = .ok rows → ∀ t ∈ rows, 0 ≤ t.2.2) :
    ScoreShapeProp e q n mode := by
  intro sr hsr
  by_cases hmv : mode = mVector
  · rw [search, if_pos hmv] at hsr
    obtain ⟨r, hr, rfl⟩ := List.mem_map.mp hsr
    have hb := vector_search_score_bounds e q n (fun rows h => hd q n rows h) r hr
    exact ⟨⟨hb.1, hb.2, le_refl 0⟩, fun h => absurd hmv h, fun _ => ⟨rfl, rfl⟩,
      fun h => absurd (hmv.symm.trans h) (by decide)⟩
  · by_cases hmb : mode = mBm25
    · rw [search, if_neg hmv, if_pos hmb] at hsr
      obtain ⟨r, hr, rfl⟩ := List.mem_map.mp hsr
      have hp := bm25_search_pos e q n r hr
      exact ⟨⟨le_refl 0, by norm_num [mkBmSR], le_of_lt hp⟩, fun _ h => absurd hmb h,
        fun h => absurd h hmv, fun _ => ⟨rfl, rfl⟩⟩
    · rw [search, if_neg hmv, if_neg hmb] at hsr
      obtain ⟨p, hp, rfl⟩ := mem_hybrid_search hsr
      have hB := combine_score_bounds e q n hd p hp
      exact ⟨⟨hB.1, hB.2.1, hB.2.2⟩, fun _ _ => rfl, fun h => absurd h hmv,
        fun h => absurd h hmb⟩

/-- Witness for C3 on the two-document store `E2w` in hybrid mode. -/
theorem score_shape_witness : ScoreShapeProp E2w qW 1 mHybrid :=
  score_shape E2w qW 1 mHybrid (by
    intro q' n' rows h
    injection h with h2
    rw [← h2]
    decide)

/-- C3 counterexample: in vector mode with the default weights the
returned hybrid score is the raw vector score 1, while the weighted sum
of the branch scores is 7/10 — the claimed universal equation fails. -/
theorem score_formula_cex :
    (search E6 qW 1 mVector).map (fun r => r.hybrid_score) = [1] ∧
    (search E6 qW 1 mVector).map
      (fun r => E6.vector_weight * r.vector_score + E6.bm25_weight * r.bm25_score) =
      [7/10] ∧
    (1 : ℚ) ≠ 7/10 := by
  refine ⟨?_, ?_, by norm_num⟩
  · simp [search, vector_search, E6, mkVecSR, List.enum]
  · simp [search, vector_search, E6, mkVecSR, List.enum]

/-- If the (truthy) keys of a branch are distinct, no row left or right
of a given row shares its key. -/
theorem nodup_key_split {γ : Type} (keyf : γ → MVal) (tr : γ → Bool)
    (l₁ : List γ) (r : γ) (l₂ : List γ)
    (H : (((l₁ ++ r :: l₂).filter tr).map keyf).Nodup) (htr : tr r = true) :
    (∀ x ∈ l₁, tr x = true → keyf x ≠ keyf r) ∧
    (∀ x ∈ l₂, tr x = true → keyf x ≠ keyf r) := by
  rw [List.filter_append, List.filter_cons_of_pos htr, List.map_append, List.map_cons] at H
  obtain ⟨-, hcons, hdisj⟩ := List.nodup_append.mp H
  constructor
  · intro x hx htx heq
    exact hdisj (heq ▸ List.mem_map_of_mem keyf (List.mem_filter.mpr ⟨hx, htx⟩))
      (List.mem_cons_self _ _)
  · intro x hx htx heq
    exact (List.nodup_cons.mp hcons).1
      (heq ▸ List.mem_map_of_mem keyf (List.mem_filter.mpr ⟨hx, htx⟩))

/-- C2 (amended): fusion completeness over the merge keys actually used
by the code, assuming each branch reports each truthy key once. -/
theorem fusion_completeness (e : Engine) (q : Str) (n : Nat)
    (H1 : (((vbranch e q n).filter (fun r => (docKey r.metadata).truthy)).map
      (fun r => docKey r.metadata)).Nodup)
    (H2 : (((bbranch e q n).filter (fun r => (docKey r.metadata).truthy)).map
      (fun r => docKey r.metadata)).Nodup) :
    FusionProp e q n := by
  refine ⟨?_, ?_, ?_, rfl⟩
  · intro r hr htr hnob
    obtain ⟨v₁, v₂, hveq⟩ := List.append_of_mem hr
    have hsplit := nodup_key_split (fun r : VRow => docKey r.metadata)
      (fun r => (docKey r.metadata).truthy) v₁ r v₂ (hveq ▸ H1) htr
    simp only [combineResults]
    rw [aget_foldl_addBm_nokey _ _ _ (fun r' hr' _ => hnob r' hr'), hveq]
    exact aget_foldl_addVec_unique v₁ r v₂ [] htr hsplit.2
  · intro r hr htr hnov
    obtain ⟨b₁, b₂, hbeq⟩ := List.append_of_mem hr
    have hsplit := nodup_key_split (fun r : BRow => docKey r.metadata)
      (fun r => (docKey r.metadata).truthy) b₁ r b₂ (hbeq ▸ H2) htr
    simp only [combineResults]
    rw [hbeq]
    exact aget_foldl_addBm_new b₁ r b₂ _ htr hsplit.2
      (by
        rw [aget_foldl_addBm_nokey b₁ _ _ hsplit.1,
          aget_foldl_addVec_nokey _ _ _ (fun r' hr' _ => hnov r' hr')]
        rfl)
  · intro rv hrv rb hrb htr heq
    obtain ⟨v₁, v₂, hveq⟩ := List.append_of_mem hrv
    obtain ⟨b₁, b₂, hbeq⟩ := List.append_of_mem hrb
    have hsv := nodup_key_split (fun r : VRow => docKey r.metadata)
      (fun r => (docKey r.metadata).truthy) v₁ rv v₂ (hveq ▸ H1) htr
    have htb : (docKey rb.metadata).truthy = true := by rw [heq]; exact htr
    have hsb := nodup_key_split (fun r : BRow => docKey r.metadata)
      (fun r => (docKey r.metadata).truthy) b₁ rb b₂ (hbeq ▸ H2) htb
    simp only [combineResults]
    have haccV : aget (docKey rb.metadata) ((vbranch e q n).foldl addVec []) =
        some (entryOfV rv) := by
      rw [heq, hveq]
      exact aget_foldl_addVec_unique v₁ rv v₂ [] htr hsv.2
    have hupd := aget_foldl_addBm_upd b₁ rb b₂ ((vbranch e q n).foldl addVec [])
      (entryOfV rv) htb hsb.2
      (by rw [aget_foldl_addBm_nokey b₁ _ _ hsb.1]; exact haccV)
    rw [heq, ← hbeq] at hupd
    exact hupd

/-- C2 counterexample: a document returned only by the vector branch,
carrying a non-empty `id` but an empty `url`, vanishes from the hybrid
result set entirely (`hybrid_search` returns `[]` despite `k = 5`). -/
theorem fusion_completeness_cex :
    (vbranch E2c qW 5).map (fun r => r.metadata) =
      [[(kUrl, MVal.str []), (kId, MVal.str ( "x".data))]] ∧
    (MVal.str ( "x".data)).truthy = true ∧
    bbranch E2c qW 5 = [] ∧
    hybrid_search E2c qW 5 = [] := by
  refine ⟨by decide, by decide, by decide, by decide⟩

/-- Witness for C2: on `E2w` the vector-only document (key `v`) is
present in the combined map with its vector row's content and metadata
and BM25 score 0. -/
theorem fusion_completeness_witness :
    (((vbranch E2w qW 1).filter (fun r => (docKey r.metadata).truthy)).map
      (fun r => docKey r.metadata)).Nodup ∧
    aget (MVal.str ( "v".data))
      (combineResults (vbranch E2w qW 1) (bbranch E2w qW 1)) =
      some (entryOfV (⟨ "vec only doc".data, [(kId, MVal.str ( "v".data))],
        1 / (1 + (0 : ℚ)), 0 + 1⟩ : VRow)) := by
  refine ⟨by decide, ?_⟩
  exact (fusion_completeness E2w qW 1 (by decide) (by decide)).1
    ⟨ "vec only doc".data, [(kId, MVal.str ( "v".data))], 1 / (1 + (0 : ℚ)), 0 + 1⟩
    (List.mem_cons_self _ _) (by decide) (by decide)

/-- C10 (amended): lexical-branch content is the reconstruction from the
stored tokens, truncated for display in materialized results. -/
theorem lexical_content_reconstruction (e : Engine) (q : Str) (n : Nat)
    (hwf : ∀ ts : List Str, (e.bmIndex ts).length = (e.docs.zip e.metas).length) :
    LexicalContentProp e q n := by
  have part1 : ∀ (q' : Str) (n' : Nat), ∀ r ∈ bm25_search e q' n',
      ∃ (i : Nat) (p : Str × Metadata),
        (e.docs.zip e.metas)[i]? = some p ∧
        r.content = joinWs (splitWs (lowerS p.1)) ∧
        r.metadata = aset kDocIndex (.num i) p.2 := by
    intro q' n' r hr
    by_cases hd : e.docs.isEmpty
    · simp [bm25_search, hd] at hr
    · rw [bm25_search, if_neg hd] at hr
      obtain ⟨a, ha, hfa⟩ := List.mem_filterMap.mp hr
      by_cases hpos : 0 < a.2.2
      · rw [if_pos hpos] at hfa
        cases hfa
        have h1 : a.2 ∈ bm25Ranked e q' :=
          (List.take_sublist n' _).subset
            (List.getElem?_mem (List.mem_enum_iff_getElem?.mp ha))
        have h2 : a.2 ∈ (e.bmIndex (splitWs (lowerS q'))).enum :=
          (mem_ssortD _ _).mp h1
        have h3 : (e.bmIndex (splitWs (lowerS q')))[a.2.1]? = some a.2.2 :=
          List.mem_enum_iff_getElem?.mp h2
        have hlt : a.2.1 < (e.docs.zip e.metas).length := by
          have h4 := (List.getElem?_eq_some.mp h3).1
          rw [hwf (splitWs (lowerS q'))] at h4
          exact h4
        refine ⟨a.2.1, (e.docs.zip e.metas)[a.2.1],
          List.getElem?_eq_getElem hlt, ?_, ?_⟩
        · have hc : (corpusOf e).getD a.2.1 [] =
              splitWs (lowerS (e.docs.zip e.metas)[a.2.1].1) := by
            rw [List.getD_eq_getElem?_getD, corpusOf, List.getElem?_map,
              List.getElem?_eq_getElem hlt]
            rfl
          simpa using congrArg joinWs hc
        · have hm : (metasIdx e).getD a.2.1 [] =
              aset kDocIndex (.num a.2.1) (e.docs.zip e.metas)[a.2.1].2 := by
            rw [List.getD_eq_getElem?_getD, metasIdx, List.getElem?_map,
              List.getElem?_enum, List.getElem?_eq_getElem hlt]
            rfl
          simpa using hm
      · rw [if_neg hpos] at hfa
        cases hfa
  refine ⟨part1 q n, ?_, ?_, ?_⟩
  · intro sr hsr
    rw [search, if_neg (by decide : ¬ mBm25 = mVector), if_pos rfl] at hsr
    obtain ⟨r, hr, rfl⟩ := List.mem_map.mp hsr
    exact ⟨r, hr, rfl, rfl⟩
  · intro p hp hnov
    have hinv := addBm_pinv (fun p : MVal × CEntry =>
        (∃ rv ∈ vbranch e q n, (docKey rv.metadata).truthy = true ∧
          p.1 = docKey rv.metadata) ∨
        (∃ br ∈ bbranch e q n, p.2.content = br.content ∧ p.2.metadata = br.metadata))
      (bbranch e q n) ((vbranch e q n).foldl addVec []) ?_ ?_ ?_ p hp
    · rcases hinv with ⟨rv, hrv, htr, hkey⟩ | h
      · exact absurd ⟨htr, hkey.symm⟩ (hnov rv hrv)
      · exact h
    · refine addVec_pinv _ _ _ (by simp) ?_
      intro r hr htr
      exact Or.inl ⟨r, hr, htr, rfl⟩
    · intro r hr htr
      exact Or.inr ⟨r, hr, rfl, rfl⟩
    · rintro k en r hr (⟨rv, hrv, htr, hkey⟩ | ⟨br, hbr, hc, hm⟩)
      · exact Or.inl ⟨rv, hrv, htr, hkey⟩
      · exact Or.inr ⟨br, hbr, hc, hm⟩
  · intro sr hsr
    obtain ⟨p, hp, rfl⟩ := mem_hybrid_search hsr
    exact ⟨p, hp, rfl, rfl⟩

set_option maxRecDepth 100000 in
/-- C10 counterexample: for a 501-character document the BM25-mode
result's content is the truncated reconstruction (500 characters plus
an ellipsis), not the reconstruction itself. -/
theorem lexical_content_cex :
    (search E10 qW 5 mBm25).map (fun r => r.content) =
      [truncateS (joinWs (splitWs (lowerS doc10)))] ∧
    truncateS (joinWs (splitWs (lowerS doc10))) ≠ joinWs (splitWs (lowerS doc10)) := by
  constructor
  · decide
  · decide

/-- Witness for C10 on the single-document store `E10`. -/
theorem lexical_content_witness : LexicalContentProp E10 qW 3 :=
  lexical_content_reconstruction E10 qW 3 (fun _ => rfl)

/-- A `doc_index` value read out of `metasIdx` pins the corpus index. -/
theorem docIndex_pin (e : Engine) (u i : Nat)
    (h : aget kDocIndex ((metasIdx e).getD u []) = some (.num i)) :
    u = i ∧ u < (e.docs.zip e.metas).length := by
  rw [List.getD_eq_getElem?_getD] at h
  have hshape : (metasIdx e)[u]? = ((e.docs.zip e.metas)[u]?).map
      (fun pp => aset kDocIndex (.num u) pp.2) := by
    rw [metasIdx, List.getElem?_map, List.getElem?_enum]
    cases (e.docs.zip e.metas)[u]? <;> rfl
  cases hz : (e.docs.zip e.metas)[u]? with
  | none =>
    rw [hshape, hz] at h
    simp [aget] at h
  | some pp =>
    rw [hshape, hz] at h
    simp only [Option.map_some', Option.getD_some] at h
    rw [aget_aset_self] at h
    injection h with h'
    injection h' with h''
    exact ⟨h'', (List.getElem?_eq_some.mp hz).1⟩

/-- BM25 result rows appear in strictly increasing rank order. -/
theorem bm25_ranks_increasing (e : Engine) (q : Str) (n : Nat) :
    (bm25_search e q n).Pairwise (fun r r' => r.rank < r'.rank) := by
  by_cases hd : e.docs.isEmpty
  · simp [bm25_search, hd]
  · rw [bm25_search, if_neg hd, List.pairwise_filterMap]
    refine pairwise_enum_fst.imp ?_
    intro a b hab x hx y hy
    by_cases ha : 0 < a.2.2
    · rw [if_pos ha] at hx
      by_cases hb : 0 < b.2.2
      · rw [if_pos hb] at hy
        cases hx
        cases hy
        simpa using hab
      · rw [if_neg hb] at hy
        cases hy
    · rw [if_neg ha] at hx
      cases hx

/-- C5: when two corpus documents receive equal BM25 scores, the BM25
search lists them in corpus insertion order (the descending sort is
stable on ties). -/
theorem bm25_tie_stability (e : Engine) (q : Str) (n : Nat) (i j : Nat) (s : ℚ)
    (r₁ r₂ : BRow) (p p' : Nat)
    (hij : i < j)
    (hi : (e.bmIndex (splitWs (lowerS q)))[i]? = some s)
    (hj : (e.bmIndex (splitWs (lowerS q)))[j]? = some s)
    (h1 : (bm25_search e q n)[p]? = some r₁)
    (h2 : (bm25_search e q n)[p']? = some r₂)
    (hm1 : aget kDocIndex r₁.metadata = some (.num i))
    (hm2 : aget kDocIndex r₂.metadata = some (.num j)) :
    p < p' := by
  by_cases hd : e.docs.isEmpty
  · rw [bm25_search, if_pos hd] at h1
    simp at h1
  · -- source pairs of the two rows in the ranked list
    have hsrc : ∀ (p₀ : Nat) (r : BRow) (i₀ : Nat),
        (bm25_search e q n)[p₀]? = some r →
        aget kDocIndex r.metadata = some (.num i₀) →
        ∃ u : Nat, (bm25Ranked e q)[u]? = some (i₀, r.bm25_score) ∧ r.rank = u + 1 := by
      intro p₀ r i₀ h0 hm
      rw [bm25_search, if_neg hd] at h0
      have hmem := List.getElem?_mem h0
      obtain ⟨a, ha, hfa⟩ := List.mem_filterMap.mp hmem
      by_cases hpos : 0 < a.2.2
      · rw [if_pos hpos] at hfa
        cases hfa
        have hpin := docIndex_pin e a.2.1 i₀ hm
        have htake := List.mem_enum_iff_getElem?.mp ha
        have hlt : a.1 < ((bm25Ranked e q).take n).length :=
          (List.getElem?_eq_some.mp htake).1
        have hranked : (bm25Ranked e q)[a.1]? = some a.2 := by
          rw [← List.getElem?_take_of_lt (lt_of_lt_of_le hlt (List.length_take_le n _))]
          exact htake
        refine ⟨a.1, ?_, rfl⟩
        have : a.2 = (i₀, a.2.2) := by
          rw [← hpin.1]
        rw [← this]
        exact hranked
      · rw [if_neg hpos] at hfa
        cases hfa
    obtain ⟨u₁, hu₁, hrk₁⟩ := hsrc p r₁ i h1 hm1
    obtain ⟨u₂, hu₂, hrk₂⟩ := hsrc p' r₂ j h2 hm2
    -- the scores at those pairs are `s`
    have hsc : ∀ (u i₀ : Nat) (c : ℚ), (bm25Ranked e q)[u]? = some (i₀, c) →
        (e.bmIndex (splitWs (lowerS q)))[i₀]? = some c := by
      intro u i₀ c hu
      exact List.mem_enum_iff_getElem?.mp
        ((mem_ssortD _ _).mp (List.getElem?_mem hu))
    have hs₁ : r₁.bm25_score = s := by
      have h5 := hsc u₁ i r₁.bm25_score hu₁
      rw [hi] at h5
      injection h5 with h6
      exact h6.symm
    have hs₂ : r₂.bm25_score = s := by
      have h5 := hsc u₂ j r₂.bm25_score hu₂
      rw [hj] at h5
      injection h5 with h6
      exact h6.symm
    rw [hs₁] at hu₁
    rw [hs₂] at hu₂
    -- stability: (i, s) precedes (j, s) in the ranked list
    have hsub : List.Sublist [(i, s), (j, s)] (bm25Ranked e q) := by
      refine pair_sublist_ssortD (fun pr : Nat × ℚ => pr.2) (le_refl s) ?_
      refine pos_pair_sublist _ i j hij ?_ ?_
      · rw [List.getElem?_enum, hi]
        rfl
      · rw [List.getElem?_enum, hj]
        rfl
    obtain ⟨w₁, w₂, hw, hwi, hwj⟩ := sublist_pair_pos hsub
    -- each pair occurs at a unique position: first components are distinct
    have hnod : ((bm25Ranked e q).map Prod.fst).Nodup := by
      have hperm := (perm_ssortD (fun pr : Nat × ℚ => pr.2)
        (e.bmIndex (splitWs (lowerS q))).enum).map Prod.fst
      refine hperm.symm.nodup ?_
      rw [List.enum_map_fst]
      exact List.nodup_range _
    have hpos_inj : ∀ (w w' i₀ : Nat) (c c' : ℚ),
        (bm25Ranked e q)[w]? = some (i₀, c) → (bm25Ranked e q)[w']? = some (i₀, c') →
        w = w' := by
      intro w w' i₀ c c' hw hw'
      refine nodup_getElem?_inj hnod (x := i₀) ?_ ?_
      · rw [List.getElem?_map, hw]
        rfl
      · rw [List.getElem?_map, hw']
        rfl
    have he₁ : u₁ = w₁ := hpos_inj u₁ w₁ i s s hu₁ hwi
    have he₂ : u₂ = w₂ := hpos_inj u₂ w₂ j s s hu₂ hwj
    have hrank : r₁.rank < r₂.rank := by
      rw [hrk₁, hrk₂, he₁, he₂]
      omega
    -- ranks increase along the output, so positions follow rank order
    have hpw := bm25_ranks_increasing e q n
    rw [List.pairwise_iff_getElem] at hpw
    obtain ⟨hpl, hpe⟩ := List.getElem?_eq_some.mp h1
    obtain ⟨hpl', hpe'⟩ := List.getElem?_eq_some.mp h2
    rcases Nat.lt_trichotomy p p' with h | h | h
    · exact h
    · subst h
      rw [hpe] at hpe'
      rw [hpe'] at hrank
      exact absurd hrank (lt_irrefl _)
    · have := hpw p' p hpl' hpl h
      rw [hpe, hpe'] at this
      exact absurd (lt_trans hrank this) (lt_irrefl _)

/-- Witness for C5: on `E5` documents 0 and 2 tie with score 2; the
output lists document 0 (rank 2, position 1) before document 2
(rank 3, position 2). -/
theorem bm25_tie_stability_witness : (1 : Nat) < 2 :=
  bm25_tie_stability E5 qW 5 0 2 2
    ⟨ "aa bb".data, [(kDocIndex, MVal.num 0)], 2, 2⟩
    ⟨ "dd ee".data, [(kDocIndex, MVal.num 2)], 2, 3⟩
    1 2 (by decide) (by decide) (by decide) (by decide) (by decide)
    (by decide) (by decide)

end HybridRag
